import Mathlib

/-!
# Verification of the RAMCloud log-segment specification

The repository ships `src/SegmentTest.cc`, the unit tests of the `Segment`
class.  The `Segment` implementation itself (`Segment.h` / `Segment.cc`) is
not part of the sources, so the definitions below are modelled from the
specification (`spec.md`), constrained byte-for-byte by the expectations of
`SegmentTest.cc`: the model reproduces the exact certificate checksums the
tests demand (`0x48674bc7`, `0x87a632e2`, `0x62f2f7f6`), which pins down the
checksum algorithm (CRC-32C), the certificate layout and the numeric value
of `LOG_ENTRY_TYPE_OBJ`.

Machine integers are modelled as `Nat`; memory bytes are reduced `% 256` at
the read boundary (`Segment.byteAt`), and the logical byte space of a
segment is a function `Nat → Nat`.  Blocks (seglets) tile the logical
address space (`blocks[i]` covers `[i*segletSize, (i+1)*segletSize)`), so
the scatter-gather block-by-block copies of the C++ code denote plain
range reads/writes on the logical space; the block structure itself shows
up in `peek` (contiguity ends at a block boundary) and in
`getSegletsAllocated`.
-/

namespace RAMCloud

/-! ## CRC-32C (Castagnoli)

Modelled from the spec: §3 "checksum: 32-bit value", §9 "the source computes
a specific 32-bit rolling checksum"; `SegmentTest.cc` fixes the algorithm to
CRC-32C (reflected polynomial `0x82F63B78`, initial register `0xFFFFFFFF`,
final xor `0xFFFFFFFF`) — the model below reproduces the test's literal
checksums exactly. -/

def crcPoly : Nat := 0x82F63B78

/-- One reflected CRC-32C bit step on the 32-bit register. -/
def crcStep (s : Nat) : Nat := (s >>> 1) ^^^ (if s % 2 = 1 then crcPoly else 0)

/-- Feed one byte into the register: xor into the low bits, then 8 bit steps. -/
def crcByte (s b : Nat) : Nat :=
  crcStep (crcStep (crcStep (crcStep (crcStep (crcStep (crcStep (crcStep (s ^^^ b))))))))

/-- Feed a byte sequence into the register. -/
def crcUpdate (s : Nat) (bytes : List Nat) : Nat := bytes.foldl crcByte s

def crcInit : Nat := 0xFFFFFFFF

/-- Extract the checksum value from the register (final xor). -/
def crcResult (s : Nat) : Nat := s ^^^ 0xFFFFFFFF

/-! ## Little-endian length codec -/

/-- `toLE w v` is the `w`-byte little-endian encoding of `v` (truncating). -/
def toLE : Nat → Nat → List Nat
  | 0, _ => []
  | w + 1, v => v % 256 :: toLE w (v / 256)

/-- Decode a little-endian byte sequence (each byte reduced `% 256`). -/
def fromLE : List Nat → Nat
  | [] => 0
  | b :: rest => b % 256 + 256 * fromLE rest

/-! ## Entry header codec

Modelled from the spec: §4.1 — one header byte carries the tag (low 6 bits)
and a 2-bit width selector (high 2 bits, storing `width - 1`), followed by
`width` little-endian length bytes; widths 1–3 are produced by minimal
selection, width 4 exists only in the decoder (a corruption can present it). -/

/-- Minimal number of length bytes for a payload length (§4.1). -/
def lengthBytesFor (len : Nat) : Nat :=
  if len < 0x100 then 1
  else if len < 0x10000 then 2
  else if len < 0x1000000 then 3
  else 4

/-- The single header byte: tag in the low six bits, `width - 1` in the top two. -/
def entryHeaderByte (type len : Nat) : Nat :=
  type % 64 + (lengthBytesFor len - 1) * 64

/-- Decode the tag from a header byte (`lengthBytesAndType & 0x3f`). -/
def headerType (b : Nat) : Nat := b % 64

/-- Decode the length-field width from a header byte (`(b >> 6) + 1`). -/
def headerLengthBytes (b : Nat) : Nat := b % 256 / 64 + 1

/-- Numeric value of `LOG_ENTRY_TYPE_OBJ`; pinned by the checksum literals of
`SegmentTest.append_whiteBox` and `SegmentTest.getAppendedLength`. -/
def LOG_ENTRY_TYPE_OBJ : Nat := 2

/-! ## Certificate and Segment state -/

/-- Modelled from the spec: §3 — `{ segmentLength, checksum }`, comparable by
value. -/
structure Certificate where
  segmentLength : Nat
  checksum : Nat
deriving DecidableEq, Repr

/-- Modelled from the spec: §3 — the segment state.  `mem` is the logical
byte space backed by the ordered blocks; `segletCount` is the number of
backing blocks (`segletBlocks.size()`), each of size `segletSize`;
`checksum` is the running CRC-32C register folded over the header and
length bytes of every committed entry (§4.5); `mustFreeBlocks` is the
ownership flag (§3 `ownsBlocks`). -/
structure Segment where
  segletSize : Nat
  segletCount : Nat
  mem : Nat → Nat
  head : Nat
  closed : Bool
  checksum : Nat
  mustFreeBlocks : Bool

/-- Total allocated capacity: the blocks tile `[0, segletCount * segletSize)`. -/
def Segment.capacity (s : Segment) : Nat := s.segletCount * s.segletSize

def Segment.getSegletsAllocated (s : Segment) : Nat := s.segletCount

/-- Read one byte of the logical byte space (0 outside the allocated range). -/
def Segment.byteAt (s : Segment) (i : Nat) : Nat :=
  if i < s.capacity then s.mem i % 256 else 0

/-- A freshly constructed segment over `segletCount` pre-allocated seglets
(`SegmentAndAllocator` hands all seglets to the constructor): open, empty,
owning. -/
def Segment.fresh (segletSize segletCount : Nat) : Segment :=
  { segletSize := segletSize
    segletCount := segletCount
    mem := fun _ => 0
    head := 0
    closed := false
    checksum := crcInit
    mustFreeBlocks := false }

/-- Modelled from the spec: §6 — constructing a read-only segment over an
externally supplied contiguous byte range: one synthetic block covering the
whole range, `closed = true`, `head = providedLength`, non-owning. -/
def Segment.fromBuffer (bytes : List Nat) : Segment :=
  { segletSize := bytes.length
    segletCount := 1
    mem := fun i => bytes.getD i 0
    head := bytes.length
    closed := true
    checksum := crcInit
    mustFreeBlocks := false }

/-- Overwrite `src.length` bytes of a logical byte space starting at `o`. -/
def memWrite (m : Nat → Nat) (o : Nat) (src : List Nat) : Nat → Nat :=
  fun i => if o ≤ i ∧ i < o + src.length then src.getD (i - o) 0 else m i

/-! ## Raw scatter-gather copy (spec §4.4)

Modelled from the spec: all three operations are bounded by the total
allocated capacity (not `head`), return the number of bytes actually
copied, and handle ranges straddling block boundaries (the blocks tile the
logical space, so they denote range operations on it). -/

/-- `copyIn(offset, src, length)`: raw write, clipped at capacity. -/
def Segment.copyIn (s : Segment) (offset : Nat) (src : List Nat) : Nat × Segment :=
  let n := min src.length (s.capacity - offset)
  (n, { s with mem := memWrite s.mem offset (src.take n) })

/-- `copyOut(offset, dest, length)`: raw read, clipped at capacity. -/
def Segment.copyOut (s : Segment) (offset len : Nat) : Nat × List Nat :=
  let n := min len (s.capacity - offset)
  (n, (List.range' offset n).map s.byteAt)

/-- `copyInFromBuffer(offset, srcBuffer, srcOffset, length)`: like `copyIn`
with the source taken from a range of an external buffer. -/
def Segment.copyInFromBuffer (s : Segment) (offset : Nat) (buf : List Nat)
    (srcOffset len : Nat) : Nat × Segment :=
  s.copyIn offset ((buf.drop srcOffset).take len)

/-- Modelled from the spec: §4.3 `peek`, adjusted to `SegmentTest.peek`,
which shows the bound is the allocated capacity, not `head` (a fresh segment
with `head = 0` peeks its whole first seglet): a direct reference to the
bytes at `offset` (`some offset` into the logical space; `none` is the null
reference) together with the byte count to the next block boundary. -/
def Segment.peek (s : Segment) (offset : Nat) : Nat × Option Nat :=
  if offset < s.capacity then (s.segletSize - offset % s.segletSize, some offset)
  else (0, none)

/-! ## Append path (spec §4.2) -/

/-- Header-plus-payload footprint of one prospective entry. -/
def entrySize (len : Nat) : Nat := 1 + lengthBytesFor len + len

/-- Modelled from the spec: §4.2 `hasSpaceFor` — total bytes required by the
batch (headers included) against the full capacity, no mutation; a closed
segment has space for nothing (`SegmentTest.hasSpaceFor`), except the empty
batch. -/
def Segment.hasSpaceFor (s : Segment) (lengths : List Nat) : Bool :=
  if lengths.isEmpty then true
  else if s.closed then false
  else decide (s.head + (lengths.map entrySize).sum ≤ s.capacity)

/-- Modelled from the spec: §4.2 `append` — fail (segment unchanged) if the
length would need a 4-byte length field (§7 hard error), if the segment is
closed, or if the entry does not fit; otherwise write the header byte, the
length bytes and the payload at `head`, fold the header and length bytes
(not the payload) into the running checksum, advance `head` by the total
size and return the start offset. -/
def Segment.append (s : Segment) (type : Nat) (payload : List Nat) :
    Segment × Option Nat :=
  let length := payload.length
  if 0x1000000 ≤ length then (s, none)
  else if s.hasSpaceFor [length] then
    let w := lengthBytesFor length
    let hb := entryHeaderByte type length
    let offset := s.head
    let s₁ := (s.copyIn offset (hb :: toLE w length)).2
    let s₂ := (s₁.copyIn (offset + 1 + w) payload).2
    ({ s₂ with
        head := offset + 1 + w + length
        checksum := crcUpdate s.checksum (hb :: toLE w length) },
      some offset)
  else (s, none)

/-- `close()`: idempotent, only sets the flag. -/
def Segment.close (s : Segment) : Segment := { s with closed := true }

/-- `getAppendedLength(&certificate)`: returns `head` and fills the
certificate from the running checksum folded with the little-endian bytes
of the `segmentLength` field (spec §4.5; layout pinned by the test's
checksum literals). -/
def Segment.getAppendedLength (s : Segment) : Nat × Certificate :=
  (s.head, ⟨s.head, crcResult (crcUpdate s.checksum (toLE 4 s.head))⟩)

/-- `appendToBuffer(buffer, offset, length)`: append the raw logical byte
range to an external buffer (spec §4.3). -/
def Segment.appendToBuffer (s : Segment) (buf : List Nat) (offset len : Nat) :
    List Nat :=
  buf ++ (s.copyOut offset len).2

/-- `appendToBuffer(buffer)`: the whole committed region `[0, head)`. -/
def Segment.appendToBufferAll (s : Segment) (buf : List Nat) : List Nat :=
  s.appendToBuffer buf 0 s.head

/-- `getEntry(offset, buffer)`: decode the header at `offset`, return the
tag and the payload bytes that the C++ code appends to the buffer
(spec §4.3). -/
def Segment.getEntry (s : Segment) (offset : Nat) : Nat × List Nat :=
  let hb := s.byteAt offset
  let w := headerLengthBytes hb
  let len := fromLE (s.copyOut (offset + 1) w).2
  (headerType hb, (s.copyOut (offset + 1 + w) len).2)

/-! ## Integrity verification (spec §4.5) -/

/-- The three failure modes of `checkMetadataIntegrity`, in the words of the
diagnostics of `SegmentTest.checkMetadataIntegrity_*`: "entries run off past
allocated segment size", "entries run off past expected length", "bad
checksum". -/
inductive CheckFailure where
  | pastAllocated
  | pastExpected
  | badChecksum
deriving DecidableEq, Repr

/-- Modelled from the spec: §4.5 — the verification walk from offset 0 up to
`segLen`.  Each step reads the header byte, then up to `width` length bytes
(bounds-checked against capacity, zero-padded exactly as the C++ code's
`uint32_t length = 0; copyOut(...)`), accumulates the metadata byte stream
that the C++ code folds incrementally into its checksum, and stops with the
appropriate failure if the decoded entry would run past the allocated
capacity or past `segLen` (capacity first: `SegmentTest.
checkMetadataIntegrity_badLength` reaches the "allocated segment size"
diagnostic with an entry that also overruns the expected length).  The walk
advances by at least two bytes per entry, so `segLen + 1` units of fuel
always suffice. -/
def Segment.checkWalk (s : Segment) (segLen : Nat) :
    Nat → Nat → Except CheckFailure (List Nat)
  | 0, _ => .ok []
  | fuel + 1, offset =>
    if offset < segLen then
      let hb := s.byteAt offset
      let w := headerLengthBytes hb
      let len := fromLE (s.copyOut (offset + 1) w).2
      let entryEnd := offset + 1 + w + len
      if s.capacity < entryEnd then .error .pastAllocated
      else if segLen < entryEnd then .error .pastExpected
      else
        match s.checkWalk segLen fuel entryEnd with
        | .error e => .error e
        | .ok rest => .ok (hb :: toLE w len ++ rest)
    else .ok []

/-- The logical offsets actually read by `checkWalk` (header bytes and
length bytes), in read order; on a failing walk, up to and including the
entry that fails. -/
def Segment.walkOffsets (s : Segment) (segLen : Nat) :
    Nat → Nat → List Nat
  | 0, _ => []
  | fuel + 1, offset =>
    if offset < segLen then
      let hb := s.byteAt offset
      let w := headerLengthBytes hb
      let n := min w (s.capacity - (offset + 1))
      let len := fromLE (s.copyOut (offset + 1) w).2
      let entryEnd := offset + 1 + w + len
      let entryOffs := offset :: List.range' (offset + 1) n
      if s.capacity < entryEnd then entryOffs
      else if segLen < entryEnd then entryOffs
      else entryOffs ++ s.walkOffsets segLen fuel entryEnd
    else []

/-- The offsets read when verifying against a certificate. -/
def Segment.metadataOffsets (s : Segment) (segLen : Nat) : List Nat :=
  s.walkOffsets segLen (segLen + 1) 0

/-- Modelled from the spec: §4.5 `checkMetadataIntegrity`, with the reported
diagnostic made explicit.  `none` means the segment verifies. -/
def Segment.checkDiagnostic (s : Segment) (cert : Certificate) :
    Option CheckFailure :=
  match s.checkWalk cert.segmentLength (cert.segmentLength + 1) 0 with
  | .error e => some e
  | .ok stream =>
    if crcResult (crcUpdate crcInit (stream ++ toLE 4 cert.segmentLength))
        = cert.checksum then none
    else some .badChecksum

/-- `checkMetadataIntegrity(certificate)`: true iff no failure is reported. -/
def Segment.checkMetadataIntegrity (s : Segment) (cert : Certificate) : Bool :=
  (s.checkDiagnostic cert).isNone

/-- The state invariant: the write cursor never passes the allocated
capacity. -/
def Segment.wf (s : Segment) : Prop := s.head ≤ s.capacity

/-- The append loop of `SegmentTest.append_outOfSpace`: append the same
payload until the first failure, returning the final segment and the number
of successful appends. -/
def appendLoop : Nat → Segment → Nat → List Nat → Segment × Nat
  | 0, s, _, _ => (s, 0)
  | fuel + 1, s, ty, p =>
    match s.append ty p with
    | (_, none) => (s, 0)
    | (s₁, some _) =>
      ((appendLoop fuel s₁ ty p).1, (appendLoop fuel s₁ ty p).2 + 1)

/-! ## A crafted segment for the corruption-detection analysis

A 200-byte first payload whose bytes are chosen so that shrinking the first
entry's length byte from 200 to 20 re-partitions the committed region into
seven fake entries whose recomputed metadata checksum collides with the
original certificate (the six fake tag bytes were solved over GF(2)). -/

def cePayload : List Nat :=
  List.replicate 20 0 ++ [48, 28] ++ List.replicate 28 0 ++ [33, 28] ++
  List.replicate 28 0 ++ [34, 28] ++ List.replicate 28 0 ++ [39, 28] ++
  List.replicate 28 0 ++ [48, 28] ++ List.replicate 28 0 ++ [16, 28] ++
  List.replicate 28 0

/-- One 400-byte seglet; entry 1 = `(OBJ, cePayload)`, entry 2 = `(OBJ, [])`;
`head = 204`. -/
def ceSegment : Segment :=
  (((Segment.fresh 400 1).append LOG_ENTRY_TYPE_OBJ cePayload).1.append
    LOG_ENTRY_TYPE_OBJ []).1

/-- The genuine certificate of `ceSegment`. -/
def ceCert : Certificate := ceSegment.getAppendedLength.2

/-- `ceSegment` with entry 1's length byte (offset 1) overwritten from 200
to 20. -/
def ceCorrupt : Segment := (ceSegment.copyIn 1 [20]).2

/-! ## Codec lemmas -/

theorem toLE_length (w v : Nat) : (toLE w v).length = w := by
  induction w generalizing v with
  | zero => rfl
  | succ w ih => simp [toLE, ih]

theorem toLE_mem_lt (w v : Nat) : ∀ x ∈ toLE w v, x < 256 := by
  induction w generalizing v with
  | zero => simp [toLE]
  | succ w ih =>
    intro x hx
    rcases List.mem_cons.mp hx with h | h
    · omega
    · exact ih (v / 256) x h

theorem fromLE_toLE (w v : Nat) (h : v < 256 ^ w) : fromLE (toLE w v) = v := by
  induction w generalizing v with
  | zero => simp [toLE, fromLE] at *; omega
  | succ w ih =>
    have hdiv : v / 256 < 256 ^ w := by
      rw [Nat.div_lt_iff_lt_mul (by omega)]
      calc v < 256 ^ (w + 1) := h
        _ = 256 ^ w * 256 := by ring
    simp only [toLE, fromLE, ih (v / 256) hdiv]
    omega

theorem toLE_fromLE (l : List Nat) (h : ∀ x ∈ l, x < 256) :
    toLE l.length (fromLE l) = l := by
  induction l with
  | nil => rfl
  | cons b rest ih =>
    have hb : b < 256 := h b (by simp)
    have hmod : (b % 256 + 256 * fromLE rest) % 256 = b := by
      rw [Nat.add_mul_mod_self_left]; omega
    have hdiv : (b % 256 + 256 * fromLE rest) / 256 = fromLE rest := by
      omega
    simp only [List.length_cons, toLE, fromLE, hmod, hdiv]
    rw [ih (fun x hx => h x (by simp [hx]))]

theorem lengthBytesFor_pos (len : Nat) : 1 ≤ lengthBytesFor len := by
  unfold lengthBytesFor; split <;> [omega; split <;> [omega; split <;> omega]]

theorem lengthBytesFor_le_four (len : Nat) : lengthBytesFor len ≤ 4 := by
  unfold lengthBytesFor; split <;> [omega; split <;> [omega; split <;> omega]]

theorem lengthBytesFor_one {len : Nat} (h : len < 256) : lengthBytesFor len = 1 := by
  unfold lengthBytesFor; rw [if_pos h]

theorem lengthBytesFor_two {len : Nat} (h1 : 256 ≤ len) (h2 : len < 65536) :
    lengthBytesFor len = 2 := by
  unfold lengthBytesFor; rw [if_neg (by omega), if_pos (by omega)]

theorem lengthBytesFor_three {len : Nat} (h1 : 65536 ≤ len) (h2 : len < 16777216) :
    lengthBytesFor len = 3 := by
  unfold lengthBytesFor; rw [if_neg (by omega), if_neg (by omega), if_pos (by omega)]

theorem lengthBytesFor_spec {len : Nat} (h : len < 16777216) :
    len < 256 ^ lengthBytesFor len := by
  rcases Nat.lt_or_ge len 256 with h1 | h1
  · rw [lengthBytesFor_one h1]; simpa using h1
  · rcases Nat.lt_or_ge len 65536 with h2 | h2
    · rw [lengthBytesFor_two h1 h2]
      have : (256 : Nat) ^ 2 = 65536 := by norm_num
      omega
    · rw [lengthBytesFor_three h2 h]
      have : (256 : Nat) ^ 3 = 16777216 := by norm_num
      omega

theorem entryHeaderByte_lt (type len : Nat) : entryHeaderByte type len < 256 := by
  have h1 := lengthBytesFor_pos len
  have h2 := lengthBytesFor_le_four len
  have h3 : type % 64 < 64 := Nat.mod_lt _ (by omega)
  unfold entryHeaderByte
  omega

theorem headerType_entryHeaderByte (type len : Nat) :
    headerType (entryHeaderByte type len) = type % 64 := by
  have h1 := lengthBytesFor_pos len
  have h2 := lengthBytesFor_le_four len
  have h3 : type % 64 < 64 := Nat.mod_lt _ (by omega)
  unfold headerType entryHeaderByte
  omega

theorem headerLengthBytes_entryHeaderByte (type len : Nat) :
    headerLengthBytes (entryHeaderByte type len) = lengthBytesFor len := by
  have h1 := lengthBytesFor_pos len
  have h2 := lengthBytesFor_le_four len
  have h3 : type % 64 < 64 := Nat.mod_lt _ (by omega)
  have hlt := entryHeaderByte_lt type len
  unfold headerLengthBytes
  rw [Nat.mod_eq_of_lt hlt]
  unfold entryHeaderByte at *
  omega

theorem headerLengthBytes_pos (b : Nat) : 1 ≤ headerLengthBytes b := by
  unfold headerLengthBytes; omega

/-! ## CRC-32C lemmas -/

theorem crcPoly_lt : crcPoly < 2 ^ 32 := by norm_num [crcPoly]

theorem crcStep_lt {s : Nat} (h : s < 2 ^ 32) : crcStep s < 2 ^ 32 := by
  unfold crcStep
  have h1 : s >>> 1 < 2 ^ 32 := by rw [Nat.shiftRight_one]; omega
  split
  · exact Nat.xor_lt_two_pow h1 crcPoly_lt
  · simpa using h1

theorem xor_crcPoly_ge {a : Nat} (h : a < 2 ^ 31) : 2 ^ 31 ≤ a ^^^ crcPoly := by
  apply Nat.testBit_implies_ge
  rw [Nat.testBit_xor, Nat.testBit_eq_false_of_lt h]
  decide

theorem crcStep_inj {s t : Nat} (hs : s < 2 ^ 32) (ht : t < 2 ^ 32)
    (h : crcStep s = crcStep t) : s = t := by
  unfold crcStep at h
  rw [Nat.shiftRight_one, Nat.shiftRight_one] at h
  have hs2 : s / 2 < 2 ^ 31 := by omega
  have ht2 : t / 2 < 2 ^ 31 := by omega
  by_cases h1 : s % 2 = 1 <;> by_cases h2 : t % 2 = 1 <;>
    simp [h1, h2, Nat.xor_zero] at h
  · have heq : s / 2 = t / 2 := by
      have := congrArg (· ^^^ crcPoly) h
      simpa [Nat.xor_assoc, Nat.xor_self, Nat.xor_zero] using this
    omega
  · have := xor_crcPoly_ge hs2
    omega
  · have := xor_crcPoly_ge ht2
    omega
  · omega

theorem crcByte_lt {s b : Nat} (hs : s < 2 ^ 32) (hb : b < 256) :
    crcByte s b < 2 ^ 32 := by
  have hx : s ^^^ b < 2 ^ 32 := Nat.xor_lt_two_pow hs (by omega)
  unfold crcByte
  exact crcStep_lt (crcStep_lt (crcStep_lt (crcStep_lt (crcStep_lt (crcStep_lt
    (crcStep_lt (crcStep_lt hx)))))))

theorem crcByte_inj {s t b c : Nat} (hs : s < 2 ^ 32) (ht : t < 2 ^ 32)
    (hb : b < 256) (hc : c < 256) (h : crcByte s b = crcByte t c) :
    s ^^^ b = t ^^^ c := by
  have hx : s ^^^ b < 2 ^ 32 := Nat.xor_lt_two_pow hs (by omega)
  have hy : t ^^^ c < 2 ^ 32 := Nat.xor_lt_two_pow ht (by omega)
  unfold crcByte at h
  have l1 := crcStep_lt hx
  have l2 := crcStep_lt l1
  have l3 := crcStep_lt l2
  have l4 := crcStep_lt l3
  have l5 := crcStep_lt l4
  have l6 := crcStep_lt l5
  have l7 := crcStep_lt l6
  have m1 := crcStep_lt hy
  have m2 := crcStep_lt m1
  have m3 := crcStep_lt m2
  have m4 := crcStep_lt m3
  have m5 := crcStep_lt m4
  have m6 := crcStep_lt m5
  have m7 := crcStep_lt m6
  exact crcStep_inj hx hy (crcStep_inj l1 m1 (crcStep_inj l2 m2 (crcStep_inj l3 m3
    (crcStep_inj l4 m4 (crcStep_inj l5 m5 (crcStep_inj l6 m6 (crcStep_inj l7 m7 h)))))))

theorem crcByte_inj_state {s t b : Nat} (hs : s < 2 ^ 32) (ht : t < 2 ^ 32)
    (hb : b < 256) (hne : s ≠ t) : crcByte s b ≠ crcByte t b := by
  intro h
  apply hne
  have hx := crcByte_inj hs ht hb hb h
  have := congrArg (· ^^^ b) hx
  simpa [Nat.xor_assoc, Nat.xor_self, Nat.xor_zero] using this

theorem crcByte_inj_byte {s b c : Nat} (hs : s < 2 ^ 32) (hb : b < 256)
    (hc : c < 256) (hne : b ≠ c) : crcByte s b ≠ crcByte s c := by
  intro h
  apply hne
  have hx := crcByte_inj hs hs hb hc h
  have := congrArg (s ^^^ ·) hx
  simpa [Nat.xor_cancel_left] using this

theorem crcUpdate_lt {s : Nat} {l : List Nat} (hs : s < 2 ^ 32)
    (hl : ∀ x ∈ l, x < 256) : crcUpdate s l < 2 ^ 32 := by
  induction l generalizing s with
  | nil => simpa [crcUpdate] using hs
  | cons b rest ih =>
    have hb : b < 256 := hl b (by simp)
    have := ih (crcByte_lt hs hb) (fun x hx => hl x (by simp [hx]))
    simpa [crcUpdate, List.foldl_cons] using this

theorem crcUpdate_inj_state {s t : Nat} {l : List Nat} (hs : s < 2 ^ 32)
    (ht : t < 2 ^ 32) (hl : ∀ x ∈ l, x < 256) (hne : s ≠ t) :
    crcUpdate s l ≠ crcUpdate t l := by
  induction l generalizing s t with
  | nil => simpa [crcUpdate] using hne
  | cons b rest ih =>
    have hb : b < 256 := hl b (by simp)
    have hrec := ih (crcByte_lt hs hb) (crcByte_lt ht hb)
      (fun x hx => hl x (by simp [hx])) (crcByte_inj_state hs ht hb hne)
    simpa [crcUpdate, List.foldl_cons] using hrec

theorem crcUpdate_append (s : Nat) (a b : List Nat) :
    crcUpdate s (a ++ b) = crcUpdate (crcUpdate s a) b := by
  simp [crcUpdate, List.foldl_append]

/-- Two equal-length metadata byte streams that differ in exactly one byte
position always produce different CRC-32C register values. -/
theorem crcUpdate_single_corruption {i x y : Nat} (A B : List Nat)
    (hi : i < 2 ^ 32) (hA : ∀ a ∈ A, a < 256) (hB : ∀ a ∈ B, a < 256)
    (hx : x < 256) (hy : y < 256) (hne : x ≠ y) :
    crcUpdate i (A ++ x :: B) ≠ crcUpdate i (A ++ y :: B) := by
  rw [crcUpdate_append, crcUpdate_append]
  have hu : crcUpdate i A < 2 ^ 32 := crcUpdate_lt hi hA
  have hstep : crcByte (crcUpdate i A) x ≠ crcByte (crcUpdate i A) y :=
    crcByte_inj_byte hu hx hy hne
  have h1 : crcByte (crcUpdate i A) x < 2 ^ 32 := crcByte_lt hu hx
  have h2 : crcByte (crcUpdate i A) y < 2 ^ 32 := crcByte_lt hu hy
  have := crcUpdate_inj_state h1 h2 hB hstep
  simpa [crcUpdate, List.foldl_cons] using this

theorem crcResult_inj {s t : Nat} (h : crcResult s = crcResult t) : s = t := by
  unfold crcResult at h
  have := congrArg (· ^^^ 0xFFFFFFFF) h
  simpa [Nat.xor_assoc, Nat.xor_self, Nat.xor_zero] using this

theorem crcInit_lt : crcInit < 2 ^ 32 := by norm_num [crcInit]

/-! ## Segment state basics -/

theorem Segment.byteAt_lt (s : Segment) (i : Nat) : s.byteAt i < 256 := by
  unfold Segment.byteAt; split <;> omega

@[simp] theorem Segment.copyIn_segletSize (s : Segment) (o : Nat) (src : List Nat) :
    ((s.copyIn o src).2).segletSize = s.segletSize := rfl

@[simp] theorem Segment.copyIn_segletCount (s : Segment) (o : Nat) (src : List Nat) :
    ((s.copyIn o src).2).segletCount = s.segletCount := rfl

@[simp] theorem Segment.copyIn_head (s : Segment) (o : Nat) (src : List Nat) :
    ((s.copyIn o src).2).head = s.head := rfl

@[simp] theorem Segment.copyIn_closed (s : Segment) (o : Nat) (src : List Nat) :
    ((s.copyIn o src).2).closed = s.closed := rfl

@[simp] theorem Segment.copyIn_checksum (s : Segment) (o : Nat) (src : List Nat) :
    ((s.copyIn o src).2).checksum = s.checksum := rfl

@[simp] theorem Segment.copyIn_capacity (s : Segment) (o : Nat) (src : List Nat) :
    ((s.copyIn o src).2).capacity = s.capacity := rfl

@[simp] theorem Segment.copyIn_fst (s : Segment) (o : Nat) (src : List Nat) :
    (s.copyIn o src).1 = min src.length (s.capacity - o) := rfl

theorem Segment.byteAt_copyIn (s : Segment) (o : Nat) (src : List Nat) (i : Nat) :
    ((s.copyIn o src).2).byteAt i =
      if o ≤ i ∧ i < o + min src.length (s.capacity - o) then src.getD (i - o) 0 % 256
      else s.byteAt i := by
  have hcap : ((s.copyIn o src).2).capacity = s.capacity := rfl
  by_cases h1 : o ≤ i ∧ i < o + min src.length (s.capacity - o)
  · have hicap : i < s.capacity := by omega
    have hio : i - o < min src.length (s.capacity - o) := by omega
    rw [if_pos h1]
    show (if i < s.capacity then memWrite s.mem o
      (src.take (min src.length (s.capacity - o))) i % 256 else 0) = _
    rw [if_pos hicap]
    unfold memWrite
    rw [List.length_take]
    have hcond : o ≤ i ∧ i < o + min (min src.length (s.capacity - o)) src.length := by
      omega
    rw [if_pos hcond]
    congr 1
    simp only [List.getD_eq_getElem?_getD]
    rw [List.getElem?_take]
    simp [hio]
  · rw [if_neg h1]
    show (if i < s.capacity then memWrite s.mem o
      (src.take (min src.length (s.capacity - o))) i % 256 else 0) = s.byteAt i
    unfold memWrite Segment.byteAt
    rw [List.length_take]
    have hcond : ¬ (o ≤ i ∧ i < o + min (min src.length (s.capacity - o)) src.length) := by
      omega
    rw [if_neg hcond]

theorem Segment.copyOut_snd (s : Segment) (o len : Nat) :
    (s.copyOut o len).2 = (List.range' o (min len (s.capacity - o))).map s.byteAt := rfl

theorem Segment.copyOut_fst (s : Segment) (o len : Nat) :
    (s.copyOut o len).1 = min len (s.capacity - o) := rfl

theorem Segment.copyOut_length (s : Segment) (o len : Nat) :
    (s.copyOut o len).2.length = min len (s.capacity - o) := by
  rw [Segment.copyOut_snd]
  simp

theorem Segment.copyOut_mem_lt (s : Segment) (o len : Nat) :
    ∀ x ∈ (s.copyOut o len).2, x < 256 := by
  rw [Segment.copyOut_snd]
  intro x hx
  rcases List.mem_map.mp hx with ⟨i, _, rfl⟩
  exact s.byteAt_lt i

/-- `hasSpaceFor` on a one-entry batch. -/
theorem Segment.hasSpaceFor_single (s : Segment) (len : Nat) :
    s.hasSpaceFor [len] = true ↔
      s.closed = false ∧ s.head + entrySize len ≤ s.capacity := by
  unfold Segment.hasSpaceFor
  cases hc : s.closed <;> simp [hc, entrySize]

@[simp] theorem Segment.byteAt_reopen (s : Segment) (h c : Nat) (i : Nat) :
    ({ s with head := h, checksum := c } : Segment).byteAt i = s.byteAt i := rfl

/-! ## Append characterization -/

/-- A failed append returns the segment unchanged. -/
theorem Segment.append_fail (s : Segment) (type : Nat) (p : List Nat)
    (h : (s.append type p).2 = none) : (s.append type p).1 = s := by
  unfold Segment.append at *
  dsimp only at *
  by_cases h1 : 16777216 ≤ p.length
  · rw [if_pos h1]
  · rw [if_neg h1] at h ⊢
    by_cases h2 : s.hasSpaceFor [p.length] = true
    · rw [if_pos h2] at h
      simp at h
    · rw [if_neg h2]

/-- Appending to a closed segment fails with no state change. -/
theorem Segment.append_closed (s : Segment) (type : Nat) (p : List Nat)
    (h : s.closed = true) : s.append type p = (s, none) := by
  unfold Segment.append
  dsimp only
  split
  · rfl
  · have hs : s.hasSpaceFor [p.length] = false := by
      unfold Segment.hasSpaceFor
      simp [h]
    rw [if_neg (by simp [hs])]

/-- An over-large payload (4-byte length field) is rejected with no state
change. -/
theorem Segment.append_too_large (s : Segment) (type : Nat) (p : List Nat)
    (h : 16777216 ≤ p.length) : s.append type p = (s, none) := by
  unfold Segment.append
  dsimp only
  rw [if_pos h]

/-- The full description of a successful append. -/
theorem Segment.append_spec (s : Segment) (type : Nat) (p : List Nat)
    (hc : s.closed = false) (hlen : p.length < 16777216)
    (hfit : s.head + entrySize p.length ≤ s.capacity) :
    s.append type p =
      ({ (((s.copyIn s.head
            (entryHeaderByte type p.length ::
              toLE (lengthBytesFor p.length) p.length)).2).copyIn
            (s.head + 1 + lengthBytesFor p.length) p).2 with
          head := s.head + 1 + lengthBytesFor p.length + p.length
          checksum := crcUpdate s.checksum
            (entryHeaderByte type p.length ::
              toLE (lengthBytesFor p.length) p.length) },
        some s.head) := by
  unfold Segment.append
  dsimp only
  rw [if_neg (by omega), if_pos ((s.hasSpaceFor_single p.length).mpr ⟨hc, hfit⟩)]

/-- An append fails exactly when the segment is closed, the payload is too
large for a 3-byte length field, or the entry does not fit. -/
theorem Segment.append_isSome_iff (s : Segment) (type : Nat) (p : List Nat) :
    (s.append type p).2.isSome = true ↔
      s.closed = false ∧ p.length < 16777216 ∧
        s.head + entrySize p.length ≤ s.capacity := by
  constructor
  · intro h
    unfold Segment.append at h
    dsimp only at h
    by_cases h1 : 16777216 ≤ p.length
    · rw [if_pos h1] at h
      simp at h
    · rw [if_neg h1] at h
      by_cases h2 : s.hasSpaceFor [p.length] = true
      · rcases (s.hasSpaceFor_single p.length).mp h2 with ⟨h3, h4⟩
        exact ⟨h3, by omega, h4⟩
      · rw [if_neg h2] at h
        simp at h
  · intro ⟨h1, h2, h3⟩
    rw [Segment.append_spec s type p h1 h2 h3]
    rfl

/-- Bytes of the segment after a successful append: the payload zone, the
header-plus-length zone, and everything else untouched. -/
theorem Segment.byteAt_append (s : Segment) (type : Nat) (p : List Nat)
    (hc : s.closed = false) (hlen : p.length < 16777216)
    (hfit : s.head + entrySize p.length ≤ s.capacity) (i : Nat) :
    ((s.append type p).1).byteAt i =
      if s.head + 1 + lengthBytesFor p.length ≤ i ∧
          i < s.head + 1 + lengthBytesFor p.length + p.length then
        p.getD (i - (s.head + 1 + lengthBytesFor p.length)) 0 % 256
      else if s.head ≤ i ∧ i < s.head + 1 + lengthBytesFor p.length then
        (entryHeaderByte type p.length ::
          toLE (lengthBytesFor p.length) p.length).getD (i - s.head) 0 % 256
      else s.byteAt i := by
  have hw1 := lengthBytesFor_pos p.length
  have hsz : entrySize p.length = 1 + lengthBytesFor p.length + p.length := rfl
  rw [Segment.append_spec s type p hc hlen hfit]
  rw [Segment.byteAt_reopen, Segment.byteAt_copyIn, Segment.byteAt_copyIn]
  have hlen1 : (entryHeaderByte type p.length ::
      toLE (lengthBytesFor p.length) p.length).length =
      1 + lengthBytesFor p.length := by
    simp [toLE_length]; omega
  rw [hlen1]
  simp only [Segment.copyIn_capacity]
  have hmin2 : min p.length
      (s.capacity - (s.head + 1 + lengthBytesFor p.length)) = p.length := by
    omega
  have hmin1 : min (1 + lengthBytesFor p.length) (s.capacity - s.head) =
      1 + lengthBytesFor p.length := by
    omega
  simp only [hmin1, hmin2,
    show s.head + (1 + lengthBytesFor p.length) =
      s.head + 1 + lengthBytesFor p.length from by omega]

@[simp] theorem Segment.append_capacity (s : Segment) (type : Nat) (p : List Nat) :
    ((s.append type p).1).capacity = s.capacity := by
  unfold Segment.append
  dsimp only
  split
  · rfl
  · split
    · rfl
    · rfl

/-- The header byte written by a successful append, read back. -/
theorem Segment.byteAt_append_header (s : Segment) (type : Nat) (p : List Nat)
    (hc : s.closed = false) (hlen : p.length < 16777216)
    (hfit : s.head + entrySize p.length ≤ s.capacity) :
    ((s.append type p).1).byteAt s.head = entryHeaderByte type p.length := by
  have hw1 := lengthBytesFor_pos p.length
  rw [Segment.byteAt_append s type p hc hlen hfit,
    if_neg (by omega), if_pos (by omega)]
  simp [Nat.mod_eq_of_lt (entryHeaderByte_lt type p.length)]

/-- The length bytes written by a successful append, read back. -/
theorem Segment.copyOut_append_lengthBytes (s : Segment) (type : Nat) (p : List Nat)
    (hc : s.closed = false) (hlen : p.length < 16777216)
    (hfit : s.head + entrySize p.length ≤ s.capacity) :
    (((s.append type p).1).copyOut (s.head + 1) (lengthBytesFor p.length)).2 =
      toLE (lengthBytesFor p.length) p.length := by
  have hw1 := lengthBytesFor_pos p.length
  have hsz : entrySize p.length = 1 + lengthBytesFor p.length + p.length := rfl
  rw [Segment.copyOut_snd, Segment.append_capacity]
  have hmin : min (lengthBytesFor p.length) (s.capacity - (s.head + 1)) =
      lengthBytesFor p.length := by omega
  rw [hmin]
  apply List.ext_getElem
  · simp [toLE_length]
  · intro n h1 h2
    simp only [List.getElem_map, List.getElem_range']
    have hn : n < lengthBytesFor p.length := by simpa using h1
    rw [Segment.byteAt_append s type p hc hlen hfit,
      if_neg (by omega), if_pos (by omega)]
    have hidx : s.head + 1 + 1 * n - s.head = n + 1 := by omega
    rw [hidx]
    have hnlen : n < (toLE (lengthBytesFor p.length) p.length).length := by
      rw [toLE_length]; exact hn
    rw [List.getD_cons_succ, List.getD_eq_getElem _ _ hnlen]
    exact Nat.mod_eq_of_lt
      (toLE_mem_lt _ _ _ (List.getElem_mem hnlen))

/-- The payload written by a successful append, read back. -/
theorem Segment.copyOut_append_payload (s : Segment) (type : Nat) (p : List Nat)
    (hc : s.closed = false) (hlen : p.length < 16777216)
    (hfit : s.head + entrySize p.length ≤ s.capacity)
    (hbytes : ∀ b ∈ p, b < 256) :
    (((s.append type p).1).copyOut
        (s.head + 1 + lengthBytesFor p.length) p.length).2 = p := by
  have hw1 := lengthBytesFor_pos p.length
  have hsz : entrySize p.length = 1 + lengthBytesFor p.length + p.length := rfl
  rw [Segment.copyOut_snd, Segment.append_capacity]
  have hmin : min p.length
      (s.capacity - (s.head + 1 + lengthBytesFor p.length)) = p.length := by omega
  rw [hmin]
  apply List.ext_getElem
  · simp
  · intro n h1 h2
    simp only [List.getElem_map, List.getElem_range']
    have hn : n < p.length := h2
    rw [Segment.byteAt_append s type p hc hlen hfit, if_pos (by omega)]
    have hidx : s.head + 1 + lengthBytesFor p.length + 1 * n -
        (s.head + 1 + lengthBytesFor p.length) = n := by omega
    rw [hidx, List.getD_eq_getElem _ _ hn]
    exact Nat.mod_eq_of_lt (hbytes _ (List.getElem_mem hn))

/-- Round-trip: `getEntry` at the offset returned by a successful append
recovers the tag and the payload exactly. -/
theorem Segment.getEntry_append (s : Segment) (type : Nat) (p : List Nat)
    (hc : s.closed = false) (hlen : p.length < 16777216)
    (hfit : s.head + entrySize p.length ≤ s.capacity)
    (htag : type < 64) (hbytes : ∀ b ∈ p, b < 256) :
    ((s.append type p).1).getEntry s.head = (type, p) := by
  unfold Segment.getEntry
  dsimp only
  rw [Segment.byteAt_append_header s type p hc hlen hfit,
    headerLengthBytes_entryHeaderByte, headerType_entryHeaderByte,
    Segment.copyOut_append_lengthBytes s type p hc hlen hfit,
    fromLE_toLE _ _ (lengthBytesFor_spec hlen),
    Segment.copyOut_append_payload s type p hc hlen hfit hbytes,
    Nat.mod_eq_of_lt htag]

/-! ## Verification-walk lemmas -/

/-- Any amount of fuel beyond the remaining distance gives the same walk. -/
theorem Segment.checkWalk_fuel (s : Segment) (segLen : Nat) :
    ∀ f₁ f₂ offset, segLen - offset < f₁ → segLen - offset < f₂ →
      s.checkWalk segLen f₁ offset = s.checkWalk segLen f₂ offset := by
  intro f₁
  induction f₁ with
  | zero => omega
  | succ f ih =>
    intro f₂ offset h1 h2
    cases f₂ with
    | zero => omega
    | succ g =>
      by_cases ho : offset < segLen
      · simp only [Segment.checkWalk]
        rw [if_pos ho, if_pos ho]
        have hw := headerLengthBytes_pos (s.byteAt offset)
        by_cases hcap : s.capacity < offset + 1 +
            headerLengthBytes (s.byteAt offset) +
            fromLE (s.copyOut (offset + 1) (headerLengthBytes (s.byteAt offset))).2
        · rw [if_pos hcap, if_pos hcap]
        · rw [if_neg hcap, if_neg hcap]
          by_cases hseg : segLen < offset + 1 +
              headerLengthBytes (s.byteAt offset) +
              fromLE (s.copyOut (offset + 1) (headerLengthBytes (s.byteAt offset))).2
          · rw [if_pos hseg, if_pos hseg]
          · rw [if_neg hseg, if_neg hseg]
            rw [ih g _ (by omega) (by omega)]
      · simp only [Segment.checkWalk]
        rw [if_neg ho, if_neg ho]

/-- Fuel irrelevance for the read-offset list. -/
theorem Segment.walkOffsets_fuel (s : Segment) (segLen : Nat) :
    ∀ f₁ f₂ offset, segLen - offset < f₁ → segLen - offset < f₂ →
      s.walkOffsets segLen f₁ offset = s.walkOffsets segLen f₂ offset := by
  intro f₁
  induction f₁ with
  | zero => omega
  | succ f ih =>
    intro f₂ offset h1 h2
    cases f₂ with
    | zero => omega
    | succ g =>
      by_cases ho : offset < segLen
      · simp only [Segment.walkOffsets]
        rw [if_pos ho, if_pos ho]
        have hw := headerLengthBytes_pos (s.byteAt offset)
        by_cases hcap : s.capacity < offset + 1 +
            headerLengthBytes (s.byteAt offset) +
            fromLE (s.copyOut (offset + 1) (headerLengthBytes (s.byteAt offset))).2
        · rw [if_pos hcap, if_pos hcap]
        · rw [if_neg hcap, if_neg hcap]
          by_cases hseg : segLen < offset + 1 +
              headerLengthBytes (s.byteAt offset) +
              fromLE (s.copyOut (offset + 1) (headerLengthBytes (s.byteAt offset))).2
          · rw [if_pos hseg, if_pos hseg]
          · rw [if_neg hseg, if_neg hseg]
            rw [ih g _ (by omega) (by omega)]
      · simp only [Segment.walkOffsets]
        rw [if_neg ho, if_neg ho]

/-- Every offset read by the walk lies at or after the cursor. -/
theorem Segment.walkOffsets_lower (s : Segment) (segLen : Nat) :
    ∀ fuel offset x, x ∈ s.walkOffsets segLen fuel offset → offset ≤ x := by
  intro fuel
  induction fuel with
  | zero =>
    intro offset x hx
    simp [Segment.walkOffsets] at hx
  | succ f ih =>
    intro offset x hx
    by_cases ho : offset < segLen
    · simp only [Segment.walkOffsets] at hx
      rw [if_pos ho] at hx
      have hw := headerLengthBytes_pos (s.byteAt offset)
      have hself : ∀ y, y ∈ (offset :: List.range' (offset + 1)
          (min (headerLengthBytes (s.byteAt offset))
            (s.capacity - (offset + 1)))) → offset ≤ y := by
        intro y hy
        rcases List.mem_cons.mp hy with rfl | hy
        · exact Nat.le_refl _
        · rcases List.mem_range'.mp hy with ⟨i, _, rfl⟩
          omega
      split at hx
      · exact hself x hx
      · split at hx
        · exact hself x hx
        · rcases List.mem_append.mp hx with hy | hy
          · exact hself x hy
          · have := ih _ x hy
            omega
    · simp only [Segment.walkOffsets] at hx
      rw [if_neg ho] at hx
      simp at hx

/-- The offsets read by the walk are strictly increasing. -/
theorem Segment.walkOffsets_pairwise (s : Segment) (segLen : Nat) :
    ∀ fuel offset, (s.walkOffsets segLen fuel offset).Pairwise (· < ·) := by
  intro fuel
  induction fuel with
  | zero =>
    intro offset
    simp [Segment.walkOffsets]
  | succ f ih =>
    intro offset
    by_cases ho : offset < segLen
    · simp only [Segment.walkOffsets]
      rw [if_pos ho]
      have hw := headerLengthBytes_pos (s.byteAt offset)
      have hentry : (offset :: List.range' (offset + 1)
          (min (headerLengthBytes (s.byteAt offset))
            (s.capacity - (offset + 1)))).Pairwise (· < ·) := by
        refine List.pairwise_cons.mpr ⟨?_, List.pairwise_lt_range' _ _⟩
        intro y hy
        rcases List.mem_range'.mp hy with ⟨i, _, rfl⟩
        omega
      split
      · exact hentry
      · split
        · exact hentry
        · refine List.pairwise_append.mpr ⟨hentry, ih _, ?_⟩
          intro a ha b hb
          have hbl := s.walkOffsets_lower segLen f _ b hb
          rcases List.mem_cons.mp ha with rfl | ha
          · omega
          · rcases List.mem_range'.mp ha with ⟨i, hi, rfl⟩
            omega
    · simp only [Segment.walkOffsets]
      rw [if_neg ho]
      simp

/-- The walk depends only on the bytes it actually reads: two segments of
equal capacity that agree on the read offsets produce the same walk (same
read offsets, same outcome, same metadata byte stream). -/
theorem Segment.walk_congr (s s₂ : Segment) (segLen : Nat)
    (hcap : s₂.capacity = s.capacity) :
    ∀ fuel offset,
      (∀ i ∈ s.walkOffsets segLen fuel offset, s₂.byteAt i = s.byteAt i) →
      s₂.walkOffsets segLen fuel offset = s.walkOffsets segLen fuel offset ∧
        s₂.checkWalk segLen fuel offset = s.checkWalk segLen fuel offset := by
  intro fuel
  induction fuel with
  | zero =>
    intro offset _
    exact ⟨rfl, rfl⟩
  | succ f ih =>
    intro offset h
    by_cases ho : offset < segLen
    · have hw := headerLengthBytes_pos (s.byteAt offset)
      have hmem0 : offset ∈ s.walkOffsets segLen (f + 1) offset := by
        simp only [Segment.walkOffsets]
        rw [if_pos ho]
        split
        · exact List.mem_cons_self _ _
        · split
          · exact List.mem_cons_self _ _
          · simp
      have hb : s₂.byteAt offset = s.byteAt offset := h offset hmem0
      have hmemr : ∀ i ∈ List.range' (offset + 1)
          (min (headerLengthBytes (s.byteAt offset)) (s.capacity - (offset + 1))),
          i ∈ s.walkOffsets segLen (f + 1) offset := by
        intro i hi
        simp only [Segment.walkOffsets]
        rw [if_pos ho]
        split
        · exact List.mem_cons_of_mem _ hi
        · split
          · exact List.mem_cons_of_mem _ hi
          · exact List.mem_append_left _ (List.mem_cons_of_mem _ hi)
      have hcopy : (s₂.copyOut (offset + 1) (headerLengthBytes (s.byteAt offset))).2 =
          (s.copyOut (offset + 1) (headerLengthBytes (s.byteAt offset))).2 := by
        rw [Segment.copyOut_snd, Segment.copyOut_snd, hcap]
        exact List.map_congr_left (fun i hi => h i (hmemr i hi))
      by_cases hcapc : s.capacity < offset + 1 +
          headerLengthBytes (s.byteAt offset) +
          fromLE (s.copyOut (offset + 1) (headerLengthBytes (s.byteAt offset))).2
      · constructor
        · simp only [Segment.walkOffsets]
          rw [if_pos ho, if_pos ho, hb, hcopy, hcap]
          rw [if_pos hcapc, if_pos hcapc]
        · simp only [Segment.checkWalk]
          rw [if_pos ho, if_pos ho, hb, hcopy, hcap]
          rw [if_pos hcapc, if_pos hcapc]
      · by_cases hsegc : segLen < offset + 1 +
            headerLengthBytes (s.byteAt offset) +
            fromLE (s.copyOut (offset + 1) (headerLengthBytes (s.byteAt offset))).2
        · constructor
          · simp only [Segment.walkOffsets]
            rw [if_pos ho, if_pos ho, hb, hcopy, hcap]
            rw [if_neg hcapc, if_neg hcapc, if_pos hsegc, if_pos hsegc]
          · simp only [Segment.checkWalk]
            rw [if_pos ho, if_pos ho, hb, hcopy, hcap]
            rw [if_neg hcapc, if_neg hcapc, if_pos hsegc, if_pos hsegc]
        · have hunf : s.walkOffsets segLen (f + 1) offset =
              (offset :: List.range' (offset + 1)
                (min (headerLengthBytes (s.byteAt offset))
                  (s.capacity - (offset + 1)))) ++
              s.walkOffsets segLen f (offset + 1 +
                headerLengthBytes (s.byteAt offset) +
                fromLE (s.copyOut (offset + 1)
                  (headerLengthBytes (s.byteAt offset))).2) := by
            simp only [Segment.walkOffsets]
            rw [if_pos ho, if_neg hcapc, if_neg hsegc]
          have hrec := ih (offset + 1 + headerLengthBytes (s.byteAt offset) +
              fromLE (s.copyOut (offset + 1)
                (headerLengthBytes (s.byteAt offset))).2)
            (fun i hi => h i (by rw [hunf]; exact List.mem_append_right _ hi))
          constructor
          · simp only [Segment.walkOffsets]
            rw [if_pos ho, if_pos ho, hb, hcopy, hcap]
            rw [if_neg hcapc, if_neg hcapc, if_neg hsegc, if_neg hsegc, hrec.1]
          · simp only [Segment.checkWalk]
            rw [if_pos ho, if_pos ho, hb, hcopy, hcap]
            rw [if_neg hcapc, if_neg hcapc, if_neg hsegc, if_neg hsegc, hrec.2]
    · constructor
      · simp only [Segment.walkOffsets]
        rw [if_neg ho, if_neg ho]
      · simp only [Segment.checkWalk]
        rw [if_neg ho, if_neg ho]

/-- On a successful walk the metadata byte stream is exactly the bytes of
the segment at the read offsets (no zero padding occurs, because every
passing entry lies within capacity). -/
theorem Segment.checkWalk_ok_stream (s : Segment) (segLen : Nat) :
    ∀ fuel offset stream, s.checkWalk segLen fuel offset = .ok stream →
      stream = (s.walkOffsets segLen fuel offset).map s.byteAt := by
  intro fuel
  induction fuel with
  | zero =>
    intro offset stream h
    simp only [Segment.checkWalk] at h
    cases h
    simp [Segment.walkOffsets]
  | succ f ih =>
    intro offset stream h
    by_cases ho : offset < segLen
    · have hw := headerLengthBytes_pos (s.byteAt offset)
      simp only [Segment.checkWalk] at h
      rw [if_pos ho] at h
      by_cases hcapc : s.capacity < offset + 1 +
          headerLengthBytes (s.byteAt offset) +
          fromLE (s.copyOut (offset + 1) (headerLengthBytes (s.byteAt offset))).2
      · rw [if_pos hcapc] at h
        cases h
      · rw [if_neg hcapc] at h
        by_cases hsegc : segLen < offset + 1 +
            headerLengthBytes (s.byteAt offset) +
            fromLE (s.copyOut (offset + 1) (headerLengthBytes (s.byteAt offset))).2
        · rw [if_pos hsegc] at h
          cases h
        · rw [if_neg hsegc] at h
          cases hrec : s.checkWalk segLen f (offset + 1 +
              headerLengthBytes (s.byteAt offset) +
              fromLE (s.copyOut (offset + 1)
                (headerLengthBytes (s.byteAt offset))).2) with
          | error e =>
            rw [hrec] at h
            cases h
          | ok rest =>
            rw [hrec] at h
            cases h
            have hmin : min (headerLengthBytes (s.byteAt offset))
                (s.capacity - (offset + 1)) =
                headerLengthBytes (s.byteAt offset) := by omega
            have hlbytes : (s.copyOut (offset + 1)
                (headerLengthBytes (s.byteAt offset))).2 =
                (List.range' (offset + 1)
                  (headerLengthBytes (s.byteAt offset))).map s.byteAt := by
              rw [Segment.copyOut_snd, hmin]
            have hto : toLE (headerLengthBytes (s.byteAt offset))
                (fromLE (s.copyOut (offset + 1)
                  (headerLengthBytes (s.byteAt offset))).2) =
                (s.copyOut (offset + 1)
                  (headerLengthBytes (s.byteAt offset))).2 := by
              have hlen : (s.copyOut (offset + 1)
                  (headerLengthBytes (s.byteAt offset))).2.length =
                  headerLengthBytes (s.byteAt offset) := by
                rw [Segment.copyOut_length, hmin]
              have h2 := toLE_fromLE _
                (s.copyOut_mem_lt (offset + 1) (headerLengthBytes (s.byteAt offset)))
              rw [hlen] at h2
              exact h2
            simp only [Segment.walkOffsets]
            rw [if_pos ho, if_neg hcapc, if_neg hsegc, hmin]
            rw [ih _ rest hrec, hto, hlbytes]
            simp
    · simp only [Segment.checkWalk] at h
      rw [if_neg ho] at h
      cases h
      simp only [Segment.walkOffsets]
      rw [if_neg ho]
      simp

/-- Top-level congruence: verification depends only on the metadata bytes
the walk reads. -/
theorem Segment.checkDiagnostic_congr (s s₂ : Segment) (cert : Certificate)
    (hz : s₂.capacity = s.capacity)
    (h : ∀ i ∈ s.metadataOffsets cert.segmentLength, s₂.byteAt i = s.byteAt i) :
    s₂.checkDiagnostic cert = s.checkDiagnostic cert := by
  have hcong := Segment.walk_congr s s₂ cert.segmentLength hz
    (cert.segmentLength + 1) 0 h
  unfold Segment.checkDiagnostic
  rw [hcong.2]

/-- Overwriting a single byte outside the read offsets cannot change the
verification verdict. -/
theorem Segment.check_payload_immune (s : Segment) (cert : Certificate)
    (j : Nat) (b : List Nat) (hlen : b.length ≤ 1)
    (hj : j ∉ s.metadataOffsets cert.segmentLength) :
    ((s.copyIn j b).2).checkMetadataIntegrity cert =
      s.checkMetadataIntegrity cert := by
  unfold Segment.checkMetadataIntegrity
  rw [Segment.checkDiagnostic_congr s ((s.copyIn j b).2) cert (by simp)]
  intro i hi
  rw [Segment.byteAt_copyIn]
  rw [if_neg]
  intro hcond
  have : i = j := by omega
  exact hj (this ▸ hi)

/-- The read offsets never repeat. -/
theorem Segment.metadataOffsets_nodup (s : Segment) (segLen : Nat) :
    (s.metadataOffsets segLen).Nodup :=
  (s.walkOffsets_pairwise segLen (segLen + 1) 0).imp Nat.ne_of_lt

/-- Detection: if a segment verifies against a certificate, and exactly one
byte at one of the read (header or length) offsets changes while the walk
still reads the same offsets, verification fails: the recomputed checksum
cannot collide with the certificate. -/
theorem Segment.check_detects_metadata_corruption (s s₂ : Segment)
    (cert : Certificate) (j : Nat)
    (hver : s.checkMetadataIntegrity cert = true)
    (hj : j ∈ s.metadataOffsets cert.segmentLength)
    (hagree : ∀ i, i ≠ j → s₂.byteAt i = s.byteAt i)
    (hdiff : s₂.byteAt j ≠ s.byteAt j)
    (hoffs : s₂.metadataOffsets cert.segmentLength =
      s.metadataOffsets cert.segmentLength) :
    s₂.checkMetadataIntegrity cert = false := by
  unfold Segment.checkMetadataIntegrity Segment.checkDiagnostic at *
  cases h2 : s₂.checkWalk cert.segmentLength (cert.segmentLength + 1) 0 with
  | error e => simp [h2]
  | ok stream₂ =>
    cases h1 : s.checkWalk cert.segmentLength (cert.segmentLength + 1) 0 with
    | error e =>
      rw [h1] at hver
      simp at hver
    | ok stream =>
      rw [h1] at hver
      dsimp only at hver
      have hcksum : crcResult (crcUpdate crcInit
          (stream ++ toLE 4 cert.segmentLength)) = cert.checksum := by
        by_contra hne
        rw [if_neg hne] at hver
        simp at hver
      have hs1 := s.checkWalk_ok_stream cert.segmentLength _ _ stream h1
      have hs2 := s₂.checkWalk_ok_stream cert.segmentLength _ _ stream₂ h2
      rw [show Segment.walkOffsets s₂ cert.segmentLength
          (cert.segmentLength + 1) 0 =
          s₂.metadataOffsets cert.segmentLength from rfl, hoffs] at hs2
      rcases List.append_of_mem hj with ⟨L, R, hsplit⟩
      have hnd := s.metadataOffsets_nodup cert.segmentLength
      rw [hsplit] at hnd
      have hjL : j ∉ L := by
        rcases List.nodup_append.mp hnd with ⟨_, _, hdisj⟩
        intro hmem
        exact hdisj hmem (List.mem_cons_self _ _)
      have hjR : j ∉ R := by
        rcases List.nodup_append.mp hnd with ⟨_, hcons, _⟩
        exact (List.nodup_cons.mp hcons).1
      have hmapL : L.map s₂.byteAt = L.map s.byteAt :=
        List.map_congr_left (fun i hi => hagree i (fun he => hjL (he ▸ hi)))
      have hmapR : R.map s₂.byteAt = R.map s.byteAt :=
        List.map_congr_left (fun i hi => hagree i (fun he => hjR (he ▸ hi)))
      have hstream : stream = L.map s.byteAt ++ s.byteAt j :: R.map s.byteAt := by
        rw [hs1]
        show (s.metadataOffsets cert.segmentLength).map s.byteAt = _
        rw [hsplit]
        simp
      have hstream₂ : stream₂ = L.map s.byteAt ++ s₂.byteAt j :: R.map s.byteAt := by
        rw [hs2, hsplit]
        simp [hmapL, hmapR]
      have hne2 : crcResult (crcUpdate crcInit
          (stream₂ ++ toLE 4 cert.segmentLength)) ≠ cert.checksum := by
        rw [← hcksum]
        intro heq
        have heq2 := crcResult_inj heq
        rw [hstream, hstream₂] at heq2
        rw [List.append_assoc, List.append_assoc, List.cons_append,
          List.cons_append] at heq2
        have hAlt : ∀ a ∈ L.map s.byteAt, a < 256 := by
          intro a ha
          rcases List.mem_map.mp ha with ⟨i, _, rfl⟩
          exact s.byteAt_lt i
        have hBlt : ∀ a ∈ R.map s.byteAt ++ toLE 4 cert.segmentLength, a < 256 := by
          intro a ha
          rcases List.mem_append.mp ha with ha | ha
          · rcases List.mem_map.mp ha with ⟨i, _, rfl⟩
            exact s.byteAt_lt i
          · exact toLE_mem_lt _ _ _ ha
        exact crcUpdate_single_corruption (L.map s.byteAt)
          (R.map s.byteAt ++ toLE 4 cert.segmentLength) crcInit_lt hAlt hBlt
          (s₂.byteAt_lt j) (s.byteAt_lt j) hdiff heq2
      dsimp only
      rw [if_neg hne2]
      simp

/-! ## Append-loop lemmas -/

theorem Segment.append_closed_preserved (s : Segment) (type : Nat) (p : List Nat) :
    ((s.append type p).1).closed = s.closed := by
  unfold Segment.append
  dsimp only
  split
  · rfl
  · split
    · rfl
    · rfl

theorem Segment.append_segletCount (s : Segment) (type : Nat) (p : List Nat) :
    ((s.append type p).1).segletCount = s.segletCount := by
  unfold Segment.append
  dsimp only
  split
  · rfl
  · split
    · rfl
    · rfl

theorem Segment.append_head_some (s : Segment) (type : Nat) (p : List Nat)
    (off : Nat) (h : (s.append type p).2 = some off) :
    ((s.append type p).1).head = s.head + entrySize p.length := by
  rcases (Segment.append_isSome_iff s type p).mp (by rw [h]; rfl) with ⟨h1, h2, h3⟩
  rw [Segment.append_spec s type p h1 h2 h3]
  show s.head + 1 + lengthBytesFor p.length + p.length = _
  unfold entrySize
  omega

/-- The number of successful appends depends only on the control state
(head, closed flag, capacity) and the payload length, not on the tag or the
payload bytes. -/
theorem appendLoop_congr :
    ∀ fuel (s₁ s₂ : Segment) (t₁ t₂ : Nat) (p₁ p₂ : List Nat),
      s₁.head = s₂.head → s₁.closed = s₂.closed → s₁.capacity = s₂.capacity →
      p₁.length = p₂.length →
      (appendLoop fuel s₁ t₁ p₁).2 = (appendLoop fuel s₂ t₂ p₂).2 := by
  intro fuel
  induction fuel with
  | zero =>
    intro s₁ s₂ t₁ t₂ p₁ p₂ _ _ _ _
    rfl
  | succ f ih =>
    intro s₁ s₂ t₁ t₂ p₁ p₂ hh hc hz hl
    have hiff : (s₁.append t₁ p₁).2.isSome = true ↔
        (s₂.append t₂ p₂).2.isSome = true := by
      rw [Segment.append_isSome_iff, Segment.append_isSome_iff, hh, hc, hz, hl]
    cases e1 : s₁.append t₁ p₁ with
    | mk s₁' r₁ =>
      cases e2 : s₂.append t₂ p₂ with
      | mk s₂' r₂ =>
        rw [e1, e2] at hiff
        cases r₁ with
        | none =>
          cases r₂ with
          | none => simp only [appendLoop, e1, e2]
          | some o2 => simp at hiff
        | some o1 =>
          cases r₂ with
          | none => simp at hiff
          | some o2 =>
            simp only [appendLoop, e1, e2]
            have hs₁ : s₁' = (s₁.append t₁ p₁).1 := by rw [e1]
            have hs₂ : s₂' = (s₂.append t₂ p₂).1 := by rw [e2]
            have hr₁ : (s₁.append t₁ p₁).2 = some o1 := by rw [e1]
            have hr₂ : (s₂.append t₂ p₂).2 = some o2 := by rw [e2]
            have hh' : s₁'.head = s₂'.head := by
              rw [hs₁, hs₂, Segment.append_head_some s₁ t₁ p₁ o1 hr₁,
                Segment.append_head_some s₂ t₂ p₂ o2 hr₂, hh, hl]
            have hc' : s₁'.closed = s₂'.closed := by
              rw [hs₁, hs₂, Segment.append_closed_preserved,
                Segment.append_closed_preserved, hc]
            have hz' : s₁'.capacity = s₂'.capacity := by
              rw [hs₁, hs₂, Segment.append_capacity, Segment.append_capacity, hz]
            rw [ih s₁' s₂' t₁ t₂ p₁ p₂ hh' hc' hz' hl]

theorem appendLoop_segletCount :
    ∀ fuel (s : Segment) (ty : Nat) (p : List Nat),
      ((appendLoop fuel s ty p).1).segletCount = s.segletCount := by
  intro fuel
  induction fuel with
  | zero =>
    intro s ty p
    rfl
  | succ f ih =>
    intro s ty p
    cases e : s.append ty p with
    | mk s' r =>
      cases r with
      | none => simp only [appendLoop, e]
      | some o =>
        simp only [appendLoop, e]
        rw [ih]
        have hs : s' = (s.append ty p).1 := by rw [e]
        rw [hs, Segment.append_segletCount]

/-! ## Claim theorems -/

/-- **C1** — append is atomic: every `append(tag, data, length)` either fully
succeeds (the returned offset is the old head, and head advances by exactly
`headerSize + length = entrySize length`) or fully fails with the segment
unchanged (in particular no data becomes visible); a closed segment fails
immediately with no state change. -/
theorem append_atomic (s : Segment) (type : Nat) (p : List Nat) :
    ((s.append type p).2 = none → (s.append type p).1 = s) ∧
    (s.closed = true → s.append type p = (s, none)) ∧
    (∀ off, (s.append type p).2 = some off →
      off = s.head ∧
      ((s.append type p).1).head = s.head + entrySize p.length) := by
  refine ⟨Segment.append_fail s type p, Segment.append_closed s type p, ?_⟩
  intro off hsome
  refine ⟨?_, Segment.append_head_some s type p off hsome⟩
  rcases (Segment.append_isSome_iff s type p).mp (by rw [hsome]; rfl) with
    ⟨h1, h2, h3⟩
  rw [Segment.append_spec s type p h1 h2 h3] at hsome
  simp at hsome
  omega

theorem append_atomic_witness :
    ((Segment.fresh 64 4).close.append 2 [7, 8]) =
      ((Segment.fresh 64 4).close, none) :=
  (append_atomic (Segment.fresh 64 4).close 2 [7, 8]).2.1 rfl

/-- **C2** — round-trip: for every entry successfully appended at `offset`,
`getEntry offset` returns the same tag and exactly the original payload
bytes (in particular, exactly the original length of them). -/
theorem append_getEntry_round_trip (s : Segment) (type : Nat) (p : List Nat)
    (off : Nat) (htag : type < 64) (hbytes : ∀ b ∈ p, b < 256)
    (hsome : (s.append type p).2 = some off) :
    ((s.append type p).1).getEntry off = (type, p) ∧
    ((((s.append type p).1).getEntry off).2).length = p.length := by
  rcases (Segment.append_isSome_iff s type p).mp (by rw [hsome]; rfl) with
    ⟨h1, h2, h3⟩
  have hoff : off = s.head := by
    rw [Segment.append_spec s type p h1 h2 h3] at hsome
    simp at hsome
    omega
  subst hoff
  refine ⟨Segment.getEntry_append s type p h1 h2 h3 htag hbytes, ?_⟩
  rw [Segment.getEntry_append s type p h1 h2 h3 htag hbytes]

theorem append_getEntry_round_trip_witness :
    (((Segment.fresh 64 4).append 2 [9, 10, 11]).1).getEntry 0 = (2, [9, 10, 11]) :=
  (append_getEntry_round_trip (Segment.fresh 64 4) 2 [9, 10, 11] 0 (by decide)
    (by decide) (by decide)).1

/-- **C4** — minimal length-field width: lengths 0–255 take 1 length byte,
256–65535 take 2, 65536–2^24−1 take 3; a payload needing a 4-byte length
field is rejected as a hard error with the segment unchanged, so every
successfully appended payload is at most 2^24−1 bytes and its stored header
byte carries the minimal width. -/
theorem length_width_selection (s : Segment) (type : Nat) (p : List Nat) :
    (∀ len, len ≤ 255 → lengthBytesFor len = 1) ∧
    (∀ len, 256 ≤ len → len ≤ 65535 → lengthBytesFor len = 2) ∧
    (∀ len, 65536 ≤ len → len ≤ 16777215 → lengthBytesFor len = 3) ∧
    (16777216 ≤ p.length → s.append type p = (s, none)) ∧
    (∀ off, (s.append type p).2 = some off →
      p.length ≤ 16777215 ∧
      headerLengthBytes (((s.append type p).1).byteAt off) =
        lengthBytesFor p.length) := by
  refine ⟨fun len h => lengthBytesFor_one (by omega),
    fun len h1 h2 => lengthBytesFor_two h1 (by omega),
    fun len h1 h2 => lengthBytesFor_three h1 (by omega),
    Segment.append_too_large s type p, ?_⟩
  intro off hsome
  rcases (Segment.append_isSome_iff s type p).mp (by rw [hsome]; rfl) with
    ⟨h1, h2, h3⟩
  have hoff : off = s.head := by
    rw [Segment.append_spec s type p h1 h2 h3] at hsome
    simp at hsome
    omega
  subst hoff
  refine ⟨by omega, ?_⟩
  rw [Segment.byteAt_append_header s type p h1 h2 h3,
    headerLengthBytes_entryHeaderByte]

set_option maxRecDepth 10000 in
theorem length_width_selection_witness :
    headerLengthBytes
      (((Segment.fresh 65536 2).append 2 (List.replicate 300 1)).1.byteAt 0) = 2 := by
  have h := (length_width_selection (Segment.fresh 65536 2) 2
    (List.replicate 300 1)).2.2.2.2 0 (by decide)
  rw [h.2]
  decide

/-- **C5** — certificates: a zero-entry segment reports appended length 0
and a certificate `{segmentLength = 0, checksum = 0x48674bc7}` that it
always verifies against; appending one 3-byte entry (any payload bytes)
makes `getAppendedLength` return 5 = 1 header byte + 1 length byte + 3
payload bytes with certificate `{5, 0x62f2f7f6}` — deterministically, since
any 3-byte append yields these same values — and the checksum changed. -/
theorem certificate_empty_and_three_byte (z c : Nat) (p : List Nat)
    (hcap : 5 ≤ (Segment.fresh z c).capacity) (hp : p.length = 3) :
    ((Segment.fresh z c).getAppendedLength = (0, ⟨0, 0x48674bc7⟩)) ∧
    ((Segment.fresh z c).checkMetadataIntegrity ⟨0, 0x48674bc7⟩ = true) ∧
    (((Segment.fresh z c).append LOG_ENTRY_TYPE_OBJ p).2 = some 0) ∧
    (((Segment.fresh z c).append LOG_ENTRY_TYPE_OBJ p).1.getAppendedLength =
      (5, ⟨5, 0x62f2f7f6⟩)) ∧
    ((0x62f2f7f6 : Nat) ≠ 0x48674bc7) := by
  have h1 : (Segment.fresh z c).closed = false := rfl
  have h2 : p.length < 16777216 := by omega
  have h3 : (Segment.fresh z c).head + entrySize p.length ≤
      (Segment.fresh z c).capacity := by
    have hes : entrySize p.length = 5 := by
      rw [hp]
      decide
    have hh : (Segment.fresh z c).head = 0 := rfl
    omega
  have hspec := Segment.append_spec (Segment.fresh z c) LOG_ENTRY_TYPE_OBJ p h1 h2 h3
  refine ⟨?_, ?_, ?_, ?_, by decide⟩
  · show (0, (⟨0, crcResult (crcUpdate crcInit (toLE 4 0))⟩ : Certificate)) = _
    decide
  · unfold Segment.checkMetadataIntegrity Segment.checkDiagnostic
    simp only [Segment.checkWalk]
    rw [if_neg (by omega)]
    dsimp only
    rw [if_pos (by decide)]
    rfl
  · rw [hspec]
    rfl
  · rw [hspec]
    unfold Segment.getAppendedLength
    dsimp only
    rw [hp]
    show ((0 : Nat) + 1 + lengthBytesFor 3 + 3,
      (⟨0 + 1 + lengthBytesFor 3 + 3,
        crcResult (crcUpdate (crcUpdate crcInit
          (entryHeaderByte LOG_ENTRY_TYPE_OBJ 3 :: toLE (lengthBytesFor 3) 3))
          (toLE 4 (0 + 1 + lengthBytesFor 3 + 3)))⟩ : Certificate)) = _
    decide

theorem certificate_empty_and_three_byte_witness :
    ((Segment.fresh 256 260).append LOG_ENTRY_TYPE_OBJ [1, 2, 3]).1.getAppendedLength =
      (5, ⟨5, 0x62f2f7f6⟩) :=
  (certificate_empty_and_three_byte 256 260 [1, 2, 3] (by decide) rfl).2.2.2.1

set_option maxRecDepth 100000 in
set_option maxHeartbeats 1000000 in
/-- **C6** — out-of-space scenario: with seglet size 256 and segment size
66560 (260 seglets), appending 107-byte payloads (109 bytes each including
the 1-byte header and the 1-byte length field) succeeds exactly
`66560 / 109 = 610` times before the first failure, and
`getSegletsAllocated()` is then 260. -/
theorem fragmented_out_of_space (type : Nat) (p : List Nat) (hp : p.length = 107) :
    (appendLoop 700 (Segment.fresh 256 260) type p).2 = 66560 / 109 ∧
    (appendLoop 700 (Segment.fresh 256 260) type p).2 = 610 ∧
    ((appendLoop 700 (Segment.fresh 256 260) type p).1).getSegletsAllocated = 260 := by
  have hcong := appendLoop_congr 700 (Segment.fresh 256 260) (Segment.fresh 256 260)
    type LOG_ENTRY_TYPE_OBJ p (List.replicate 107 0) rfl rfl rfl (by simp [hp])
  have hval : (appendLoop 700 (Segment.fresh 256 260) LOG_ENTRY_TYPE_OBJ
      (List.replicate 107 0)).2 = 610 := by decide
  refine ⟨?_, ?_, ?_⟩
  · rw [hcong, hval]
  · rw [hcong, hval]
  · show ((appendLoop 700 (Segment.fresh 256 260) type p).1).segletCount = 260
    rw [appendLoop_segletCount]
    rfl

theorem fragmented_out_of_space_witness :
    (appendLoop 700 (Segment.fresh 256 260) 2 (List.replicate 107 42)).2 = 610 :=
  (fragmented_out_of_space 2 (List.replicate 107 42) (by simp)).2.1

/-- **C7 counterexample** — the claim says `peek` returns 0 and a null
reference whenever `offset >= head`.  On a fresh segment (`head = 0`,
matching `SegmentTest.peek`) `peek 0` instead returns the whole first
seglet: the code bound is the allocated capacity, not `head`. -/
theorem peek_head_counterexample :
    (Segment.fresh 256 260).head = 0 ∧
    (Segment.fresh 256 260).peek 0 ≠ (0, none) ∧
    (Segment.fresh 256 260).peek 0 = (256, some 0) := by
  refine ⟨rfl, by decide, by decide⟩

/-- **C7 amended** — for every offset, `peek(offset, &outPointer)` returns a
direct reference to the bytes at `offset` together with the number of bytes
contiguously readable before the next block boundary (which never exceeds
the allocated capacity), and returns 0 with a null reference whenever
`offset >= capacity` (the total allocated capacity, not `head`). -/
theorem peek_capacity_spec (s : Segment) (offset : Nat) :
    (s.capacity ≤ offset → s.peek offset = (0, none)) ∧
    (offset < s.capacity →
      (s.peek offset).2 = some offset ∧
      (s.peek offset).1 = s.segletSize - offset % s.segletSize ∧
      1 ≤ (s.peek offset).1 ∧
      offset + (s.peek offset).1 = (offset / s.segletSize + 1) * s.segletSize ∧
      offset + (s.peek offset).1 ≤ s.capacity) := by
  constructor
  · intro h
    unfold Segment.peek
    rw [if_neg (by omega)]
  · intro h
    have hsz : 0 < s.segletSize := by
      rcases Nat.eq_zero_or_pos s.segletSize with h0 | h0
      · exfalso
        have : s.capacity = 0 := by
          unfold Segment.capacity
          rw [h0]
          exact Nat.mul_zero _
        omega
      · exact h0
    have hdm := Nat.div_add_mod offset s.segletSize
    have hmlt := Nat.mod_lt offset hsz
    have hq : offset / s.segletSize + 1 ≤ s.segletCount := by
      have hlt : offset / s.segletSize < s.segletCount := by
        rw [Nat.div_lt_iff_lt_mul hsz]
        calc offset < s.capacity := h
          _ = s.segletCount * s.segletSize := rfl
      omega
    unfold Segment.peek
    rw [if_pos h]
    have hcm : (offset / s.segletSize) * s.segletSize =
        s.segletSize * (offset / s.segletSize) := Nat.mul_comm _ _
    refine ⟨rfl, rfl, by omega, ?_, ?_⟩
    · show offset + (s.segletSize - offset % s.segletSize) = _
      rw [Nat.succ_mul, hcm]
      omega
    · show offset + (s.segletSize - offset % s.segletSize) ≤ s.capacity
      have hle : (offset / s.segletSize + 1) * s.segletSize ≤
          s.segletCount * s.segletSize := Nat.mul_le_mul_right _ hq
      have heq : offset + (s.segletSize - offset % s.segletSize) =
          (offset / s.segletSize + 1) * s.segletSize := by
        rw [Nat.succ_mul, hcm]
        omega
      calc offset + (s.segletSize - offset % s.segletSize)
          = (offset / s.segletSize + 1) * s.segletSize := heq
        _ ≤ s.segletCount * s.segletSize := hle
        _ = s.capacity := rfl

theorem peek_capacity_spec_witness :
    (Segment.fresh 256 260).peek 66560 = (0, none) :=
  (peek_capacity_spec (Segment.fresh 256 260) 66560).1 (by decide)

/-- **C8** — the raw copies are bounded by the allocated capacity, not
`head`: each returns `min(length, capacity - offset)` bytes copied (0 when
`offset >= capacity`), and a `copyIn` followed by a `copyOut` of the same
range reproduces the written bytes (the flat logical byte space makes this
hold across block boundaries as well). -/
theorem copy_raw_spec (s : Segment) (offset len srcOff : Nat)
    (src buf : List Nat) :
    ((s.copyOut offset len).1 = min len (s.capacity - offset)) ∧
    ((s.copyIn offset src).1 = min src.length (s.capacity - offset)) ∧
    (s.capacity ≤ offset →
      (s.copyOut offset len).1 = 0 ∧ (s.copyIn offset src).1 = 0 ∧
      (s.copyInFromBuffer offset buf srcOff len).1 = 0) ∧
    (srcOff + len ≤ buf.length →
      (s.copyInFromBuffer offset buf srcOff len).1 =
        min len (s.capacity - offset)) ∧
    (offset + src.length ≤ s.capacity → (∀ b ∈ src, b < 256) →
      (((s.copyIn offset src).2).copyOut offset src.length).2 = src) := by
  have hfb : (s.copyInFromBuffer offset buf srcOff len).1 =
      min ((buf.drop srcOff).take len).length (s.capacity - offset) := rfl
  refine ⟨rfl, rfl, ?_, ?_, ?_⟩
  · intro h
    refine ⟨by rw [Segment.copyOut_fst]; omega, by rw [Segment.copyIn_fst]; omega, ?_⟩
    rw [hfb]
    omega
  · intro h
    rw [hfb]
    have : ((buf.drop srcOff).take len).length = len := by
      rw [List.length_take, List.length_drop]
      omega
    rw [this]
  · intro hfit hbytes
    rw [Segment.copyOut_snd, Segment.copyIn_capacity]
    have hmin : min src.length (s.capacity - offset) = src.length := by omega
    rw [hmin]
    apply List.ext_getElem
    · simp
    · intro n h1 h2
      have hn : n < src.length := h2
      simp only [List.getElem_map, List.getElem_range']
      rw [Segment.byteAt_copyIn, hmin, if_pos (by omega)]
      have hidx : offset + 1 * n - offset = n := by omega
      rw [hidx, List.getD_eq_getElem _ _ hn]
      exact Nat.mod_eq_of_lt (hbytes _ (List.getElem_mem hn))

theorem copy_raw_spec_witness :
    (((Segment.fresh 16 4).copyIn 5 [1, 2, 3]).2.copyOut 5 3).2 = [1, 2, 3] :=
  (copy_raw_spec (Segment.fresh 16 4) 5 3 0 [1, 2, 3] []).2.2.2.2
    (by decide) (by decide)

/-- **C9** — a segment constructed over an externally supplied byte range
starts closed, with `head` equal to the provided length, exactly one
synthetic block covering the whole range, and the non-owning flag cleared;
wrapping the bytes flushed from a (well-formed) segment reproduces an
equivalent closed, single-block, non-owning segment with the same committed
bytes. -/
theorem fromBuffer_spec (bytes : List Nat) (s : Segment) (hwf : s.wf) :
    ((Segment.fromBuffer bytes).closed = true ∧
      (Segment.fromBuffer bytes).head = bytes.length ∧
      (Segment.fromBuffer bytes).segletCount = 1 ∧
      (Segment.fromBuffer bytes).segletSize = bytes.length ∧
      (Segment.fromBuffer bytes).capacity = bytes.length ∧
      (Segment.fromBuffer bytes).mustFreeBlocks = false) ∧
    ((Segment.fromBuffer (s.appendToBufferAll [])).closed = true ∧
      (Segment.fromBuffer (s.appendToBufferAll [])).head = s.head ∧
      (Segment.fromBuffer (s.appendToBufferAll [])).segletCount = 1 ∧
      (Segment.fromBuffer (s.appendToBufferAll [])).mustFreeBlocks = false ∧
      ∀ i, i < s.head →
        (Segment.fromBuffer (s.appendToBufferAll [])).byteAt i = s.byteAt i) := by
  have hcap1 : ∀ l : List Nat, (Segment.fromBuffer l).capacity = l.length := by
    intro l
    show 1 * l.length = l.length
    omega
  have hflen : (s.appendToBufferAll []).length = s.head := by
    unfold Segment.appendToBufferAll Segment.appendToBuffer
    rw [List.nil_append, Segment.copyOut_length]
    unfold Segment.wf at hwf
    omega
  refine ⟨⟨rfl, rfl, rfl, rfl, hcap1 bytes, rfl⟩, rfl, ?_, rfl, rfl, ?_⟩
  · show (s.appendToBufferAll []).length = s.head
    exact hflen
  · intro i hi
    have hcap2 : (Segment.fromBuffer (s.appendToBufferAll [])).capacity = s.head := by
      rw [hcap1, hflen]
    have hbyte : (Segment.fromBuffer (s.appendToBufferAll [])).byteAt i =
        (s.appendToBufferAll []).getD i 0 % 256 := by
      unfold Segment.byteAt
      rw [hcap2, if_pos hi]
      rfl
    rw [hbyte]
    unfold Segment.appendToBufferAll Segment.appendToBuffer
    rw [List.nil_append, Segment.copyOut_snd]
    have hmin : min s.head (s.capacity - 0) = s.head := by
      unfold Segment.wf at hwf
      omega
    rw [hmin]
    have hilen : i < ((List.range' 0 s.head).map s.byteAt).length := by
      simp [hi]
    rw [List.getD_eq_getElem _ _ hilen]
    simp only [List.getElem_map, List.getElem_range']
    rw [show 0 + 1 * i = i from by omega]
    exact Nat.mod_eq_of_lt (s.byteAt_lt i)

theorem fromBuffer_spec_witness :
    (Segment.fromBuffer [5, 6, 7]).closed = true ∧
      (Segment.fromBuffer [5, 6, 7]).head = 3 :=
  ⟨(fromBuffer_spec [5, 6, 7] (Segment.fresh 4 2)
      (by unfold Segment.wf; decide)).1.1,
    (fromBuffer_spec [5, 6, 7] (Segment.fresh 4 2)
      (by unfold Segment.wf; decide)).1.2.1⟩

/-- **C10** — `hasSpaceFor` is a pure query (the model is a function of the
state alone): a closed segment has space for no batch containing at least
one length (even a zero length); the empty batch always has space; and on an
open (well-formed) segment the batch fits exactly when the total
header-plus-payload footprint fits in the remaining capacity. -/
theorem hasSpaceFor_spec (s : Segment) (lengths : List Nat) :
    (s.hasSpaceFor [] = true) ∧
    (s.closed = true → lengths ≠ [] → s.hasSpaceFor lengths = false) ∧
    (s.closed = false → s.wf →
      (s.hasSpaceFor lengths = true ↔
        s.head + (lengths.map entrySize).sum ≤ s.capacity)) := by
  refine ⟨rfl, ?_, ?_⟩
  · intro hc hne
    cases lengths with
    | nil => exact absurd rfl hne
    | cons a l =>
      unfold Segment.hasSpaceFor
      rw [if_neg (by simp), if_pos hc]
  · intro hc hwf
    unfold Segment.wf at hwf
    cases lengths with
    | nil =>
      unfold Segment.hasSpaceFor
      simp [hwf]
    | cons a l =>
      unfold Segment.hasSpaceFor
      rw [if_neg (by simp), if_neg (by simp [hc])]
      simp

theorem hasSpaceFor_spec_witness :
    (Segment.fresh 16 2).close.hasSpaceFor [0] = false :=
  (hasSpaceFor_spec (Segment.fresh 16 2).close [0]).2.1 rfl (by simp)

/-- **C3 amended** — `checkMetadataIntegrity` is total (the model returns a
`Bool` for every input) and returns false exactly when it has a specific
diagnostic to report (an entry overrunning the allocated capacity, an entry
overrunning `certificate.segmentLength`, or a checksum mismatch — the three
`CheckFailure`s, checked in that order per entry); overwriting a byte
outside the walk's read (header and length) offsets never changes the
verdict; and corrupting one byte at a read offset makes it return false
whenever the walk's read offsets (the entry boundaries) are unchanged by
the corruption — a boundary-altering corruption, however, can escape via a
checksum collision (see the counterexample). -/
theorem checkMetadataIntegrity_amended (s s₂ : Segment) (cert : Certificate)
    (j : Nat) (b : List Nat) :
    (s.checkMetadataIntegrity cert = false ↔
      ∃ e, s.checkDiagnostic cert = some e) ∧
    (b.length ≤ 1 → j ∉ s.metadataOffsets cert.segmentLength →
      ((s.copyIn j b).2).checkMetadataIntegrity cert =
        s.checkMetadataIntegrity cert) ∧
    (s.checkMetadataIntegrity cert = true →
      j ∈ s.metadataOffsets cert.segmentLength →
      (∀ i, i ≠ j → s₂.byteAt i = s.byteAt i) →
      s₂.byteAt j ≠ s.byteAt j →
      s₂.metadataOffsets cert.segmentLength =
        s.metadataOffsets cert.segmentLength →
      s₂.checkMetadataIntegrity cert = false) := by
  refine ⟨?_, Segment.check_payload_immune s cert j b,
    fun h1 h2 h3 h4 h5 =>
      Segment.check_detects_metadata_corruption s s₂ cert j h1 h2 h3 h4 h5⟩
  unfold Segment.checkMetadataIntegrity
  cases s.checkDiagnostic cert <;> simp

theorem checkMetadataIntegrity_amended_witness :
    ((((Segment.fresh 64 4).append 2 (List.replicate 10 97)).1.copyIn
        0 [3]).2).checkMetadataIntegrity
      (((Segment.fresh 64 4).append 2
        (List.replicate 10 97)).1.getAppendedLength.2) = false := by
  have h := checkMetadataIntegrity_amended
    ((Segment.fresh 64 4).append 2 (List.replicate 10 97)).1
    ((((Segment.fresh 64 4).append 2 (List.replicate 10 97)).1.copyIn 0 [3]).2)
    (((Segment.fresh 64 4).append 2 (List.replicate 10 97)).1.getAppendedLength.2)
    0 []
  refine h.2.2 (by decide) (by decide) ?_ (by decide) (by decide)
  intro i hi
  rw [Segment.byteAt_copyIn,
    if_neg (by simp only [List.length_singleton]; omega)]

set_option maxRecDepth 10000 in
/-- **C3 counterexample** — corrupting a header or length byte does *not*
always make `checkMetadataIntegrity` return false: in `ceSegment` offset 1
is the length byte of the first entry (a read offset of the walk, and the
header at offset 0 declares a 1-byte length field there); overwriting it
(200 → 20) re-partitions the committed region, and the re-parsed metadata's
checksum collides with the genuine certificate, so the corrupted segment
still verifies. -/
theorem checkMetadataIntegrity_counterexample :
    (1 : Nat) ∈ ceSegment.metadataOffsets ceCert.segmentLength ∧
    headerLengthBytes (ceSegment.byteAt 0) = 1 ∧
    ceCorrupt.byteAt 1 = 20 ∧
    ceSegment.byteAt 1 = 200 ∧
    ceSegment.checkMetadataIntegrity ceCert = true ∧
    ceCorrupt.checkMetadataIntegrity ceCert = true := by
  refine ⟨by decide, by decide, by decide, by decide, by decide, by decide⟩

/-! ## Model validation against the literal expectations of `SegmentTest.cc`

`append_whiteBox`: appending `("hi", 2)` gives appended length 4 and
certificate checksum `0x87a632e2`; `getAppendedLength`: the empty
certificate checksum is `0x48674bc7` and after `("yo!", 3)` it is
`0x62f2f7f6`; `peek` on a fresh fragmented segment; and the two
`checkMetadataIntegrity_badLength` diagnostics (the 1 GiB bogus header is
`EntryHeader(LOG_ENTRY_TYPE_OBJ, 1 << 30)`, a 4-byte length field). -/

example :
    ((Segment.fresh 65536 128).append LOG_ENTRY_TYPE_OBJ [104, 105]).1.getAppendedLength
      = (4, ⟨4, 0x87a632e2⟩) := by decide

example :
    ((Segment.fresh 65536 128).append LOG_ENTRY_TYPE_OBJ [104, 105]).2 = some 0 := by
  decide

example : (Segment.fresh 65536 128).getAppendedLength = (0, ⟨0, 0x48674bc7⟩) := by
  decide

example :
    ((Segment.fresh 65536 128).append LOG_ENTRY_TYPE_OBJ [121, 111, 33]).1.getAppendedLength
      = (5, ⟨5, 0x62f2f7f6⟩) := by decide

example : (Segment.fresh 256 260).peek 66559 = (1, some 66559) := by decide

example : (Segment.fresh 256 260).peek 1 = (255, some 1) := by decide

example :
    (let s1 := ((Segment.fresh 256 260).copyIn 0 [entryHeaderByte 2 1073741824]).2
     let s2 := (s1.copyIn 1 (toLE 4 66460)).2
     let s3 := { s2 with head := 1 }
     s3.checkDiagnostic s3.getAppendedLength.2) = some .pastExpected := by decide

example :
    (let s1 := ((Segment.fresh 256 260).copyIn 0 [entryHeaderByte 2 1073741824]).2
     let s2 := (s1.copyIn 1 (toLE 4 66560)).2
     let s3 := { s2 with head := 1 }
     s3.checkDiagnostic s3.getAppendedLength.2) = some .pastAllocated := by decide

/-- `checkMetadataIntegrity_simple`: scribbling over payload bytes leaves
verification intact; overwriting the header byte with a different tag's
header is reported as a bad checksum. -/
example :
    (let s := ((Segment.fresh 256 260).append LOG_ENTRY_TYPE_OBJ
       (List.replicate 10 97)).1
     let c := s.getAppendedLength.2
     (s.checkMetadataIntegrity c,
      ((s.copyIn 2 (List.replicate 10 65)).2).checkMetadataIntegrity c,
      ((s.copyIn 0 [entryHeaderByte 3 10]).2).checkDiagnostic c)) =
    (true, true, some .badChecksum) := by decide

end RAMCloud
